import Mathlib

/-!
# Verification of the svolang interpreter (`src/main.rs`)

Shallow embedding of the svolang pipeline:
  * `lex`       — the Scanner (`fn lex`, main.rs:28-66);
  * `parse`     — the Structurer (`fn parse`, main.rs:68-123), with the two
    `panic!` sites modelled as `Except` errors;
  * `run`       — the Evaluator (`fn run`, main.rs:125-147), with panics
    modelled as error results carrying the state at the point of failure;
  * `translate` — the conventional-encoding rewriter (main.rs:183-191).

Machine integers are modelled as `Nat`.  The Rust code uses plain `+= 1` /
`-= 1` on `u8` cells and on the `usize` data pointer; under the default
(debug) build these are checked operations that panic on wraparound, and
`tape[p]` panics when `p` is out of range.  The embedding makes each of
those panic sites an explicit error value, so the error behaviour is the
checked-arithmetic behaviour of the compiled program, not a bounds check
performed before the move (the source performs none).
-/

set_option autoImplicit false

namespace Svolang

/-- `enum OpCode` (main.rs:5-15). -/
inductive OpCode where
  | incrementPointer
  | decrementPointer
  | increment
  | decrement
  | write
  | read
  | loopBegin
  | loopEnd
deriving DecidableEq, Repr

/-- `enum Instruction` (main.rs:17-26). -/
inductive Instruction where
  | incrementPointer
  | decrementPointer
  | increment
  | decrement
  | write
  | read
  | loop (body : List Instruction)
deriving Repr

/-- Number of leading `'o'` characters: the inner `while` of `fn lex`
(main.rs:38-41). -/
def countO : List Char → Nat
  | 'o' :: rest => countO rest + 1
  | _ => 0

/-- The `match o_count` table of `fn lex` (main.rs:43-53). -/
def opOfCount : Nat → Option OpCode
  | 1 => some .increment
  | 2 => some .decrement
  | 3 => some .loopBegin
  | 4 => some .loopEnd
  | 5 => some .decrementPointer
  | 6 => some .incrementPointer
  | 7 => some .write
  | 8 => some .read
  | _ => none

/-- `fn lex` (main.rs:28-66) on the character list of the source.  On an
`"sv"` marker the following run of `'o'`s is counted, the count selects at
most one opcode, and scanning resumes after the whole run (`i = j`); any
other character is skipped. -/
def lex : List Char → List OpCode
  | 's' :: 'v' :: rest =>
    match opOfCount (countO rest) with
    | some op => op :: lex (rest.drop (countO rest))
    | none => lex (rest.drop (countO rest))
  | _ :: rest => lex rest
  | [] => []
termination_by l => l.length
decreasing_by
  all_goals simp [List.length_drop] <;> omega

/-- The two `panic!` sites of `fn parse` (main.rs:89 and main.rs:116-119),
each carrying the position the panic message reports. -/
inductive ParseError where
  | unmatchedLoopEnd (pos : Nat)
  | unterminatedLoop (start : Nat)
deriving DecidableEq, Repr

/-- The body of `fn parse` (main.rs:68-123): the `for (i, op)` loop over
`opcodes`, tracking `program`, `loop_stack` and `loop_start`, followed by
the final `loop_stack != 0` check.  On a `LoopEnd` that returns
`loop_stack` to 0, the slice `opcodes[loop_start + 1..i]` is parsed
recursively (main.rs:104-108). -/
def parseAux (opcodes : List OpCode) (i : Nat) (program : List Instruction)
    (loopStack loopStart : Nat) : Except ParseError (List Instruction) :=
  if h : i < opcodes.length then
    if hs : loopStack = 0 then
      match opcodes[i] with
      | .incrementPointer =>
          parseAux opcodes (i + 1) (program ++ [.incrementPointer]) 0 loopStart
      | .decrementPointer =>
          parseAux opcodes (i + 1) (program ++ [.decrementPointer]) 0 loopStart
      | .increment => parseAux opcodes (i + 1) (program ++ [.increment]) 0 loopStart
      | .decrement => parseAux opcodes (i + 1) (program ++ [.decrement]) 0 loopStart
      | .write => parseAux opcodes (i + 1) (program ++ [.write]) 0 loopStart
      | .read => parseAux opcodes (i + 1) (program ++ [.read]) 0 loopStart
      | .loopBegin => parseAux opcodes (i + 1) program 1 i
      | .loopEnd => .error (.unmatchedLoopEnd i)
    else
      match opcodes[i] with
      | .loopBegin => parseAux opcodes (i + 1) program (loopStack + 1) loopStart
      | .loopEnd =>
          if loopStack - 1 = 0 then
            match parseAux ((opcodes.take i).drop (loopStart + 1)) 0 [] 0 0 with
            | .ok inner => parseAux opcodes (i + 1) (program ++ [.loop inner]) 0 loopStart
            | .error e => .error e
          else
            parseAux opcodes (i + 1) program (loopStack - 1) loopStart
      | _ => parseAux opcodes (i + 1) program loopStack loopStart
  else
    if loopStack ≠ 0 then .error (.unterminatedLoop loopStart)
    else .ok program
termination_by (opcodes.length, opcodes.length - i)
decreasing_by
  all_goals simp_wf
  all_goals first
    | exact Prod.Lex.right _ (by omega)
    | exact Prod.Lex.left _ _ (by
        have h1 := List.length_drop (loopStart + 1) (opcodes.take i)
        have h2 := List.length_take i opcodes
        omega)

/-- `fn parse` (main.rs:68-123). -/
def parse (opcodes : List OpCode) : Except ParseError (List Instruction) :=
  parseAux opcodes 0 [] 0 0

/-- Depth-first flattening of an instruction tree back to opcodes: each
`Loop` node emits `LoopBegin`, its flattened body, then `LoopEnd`. -/
def flatten : List Instruction → List OpCode
  | [] => []
  | .incrementPointer :: rest => .incrementPointer :: flatten rest
  | .decrementPointer :: rest => .decrementPointer :: flatten rest
  | .increment :: rest => .increment :: flatten rest
  | .decrement :: rest => .decrement :: flatten rest
  | .write :: rest => .write :: flatten rest
  | .read :: rest => .read :: flatten rest
  | .loop body :: rest => .loopBegin :: (flatten body ++ .loopEnd :: flatten rest)

/-- Balanced, properly nested `LoopBegin`/`LoopEnd` sequences. -/
inductive Balanced : List OpCode → Prop where
  | nil : Balanced []
  | cons {op : OpCode} {rest : List OpCode} :
      op ≠ .loopBegin → op ≠ .loopEnd → Balanced rest → Balanced (op :: rest)
  | wrap {inner rest : List OpCode} :
      Balanced inner → Balanced rest →
      Balanced (.loopBegin :: inner ++ .loopEnd :: rest)

/-- State threaded through `fn run` (main.rs:125-147): the tape, the data
pointer, and the remaining stdin bytes / emitted stdout bytes. -/
structure EvalState where
  tape : List Nat
  dp : Nat
  input : List Nat
  output : List Nat
deriving DecidableEq, Repr

/-- The panic sites of `fn run` under the default (checked-arithmetic)
build: `usize` underflow on `data_pointer -= 1`, `u8` overflow/underflow
on the cell `+= 1` / `-= 1`, out-of-range `tape[data_pointer]` indexing,
and the `expect` on an exhausted stdin. -/
inductive RuntimeError where
  | pointerUnderflow
  | cellOverflow
  | cellUnderflow
  | indexOutOfBounds
  | inputExhausted
deriving DecidableEq, Repr

/-- Outcome of a terminating evaluation: normal completion, or a panic
together with the state at the point of the panic. -/
inductive RunResult where
  | ok (s : EvalState)
  | fail (e : RuntimeError) (s : EvalState)
deriving DecidableEq, Repr

/-- The state a terminating run leaves behind (the tape still exists at a
panic site: it is owned by the caller of `fn run`). -/
def RunResult.state : RunResult → EvalState
  | .ok s => s
  | .fail _ s => s

/-- `fn run` (main.rs:125-147), with `fuel` bounding the number of loop
iterations (`none` = fuel exhausted; the Rust `while` may diverge).  Each
instruction mirrors one arm of the `match`:
  * `IncrementPointer`: `*data_pointer += 1` — no check (main.rs:128);
  * `DecrementPointer`: `*data_pointer -= 1`, panics at 0 (main.rs:129);
  * `Increment`/`Decrement`: checked `u8` arithmetic on
    `tape[*data_pointer]` after the index bound is checked (main.rs:130-131);
  * `Write`: pushes `tape[*data_pointer]` to the output (main.rs:132);
  * `Read`: takes one input byte, then stores it at `tape[*data_pointer]`
    (main.rs:133-139) — the read happens before the tape index;
  * `Loop`: `while tape[*data_pointer] != 0 { run(body) }` (main.rs:140-144). -/
def run (fuel : Nat) : List Instruction → EvalState → Option RunResult
  | [], s => some (.ok s)
  | .incrementPointer :: rest, s => run fuel rest { s with dp := s.dp + 1 }
  | .decrementPointer :: rest, s =>
      if s.dp = 0 then some (.fail .pointerUnderflow s)
      else run fuel rest { s with dp := s.dp - 1 }
  | .increment :: rest, s =>
      if s.dp < s.tape.length then
        if s.tape.getD s.dp 0 = 255 then some (.fail .cellOverflow s)
        else run fuel rest { s with tape := s.tape.set s.dp (s.tape.getD s.dp 0 + 1) }
      else some (.fail .indexOutOfBounds s)
  | .decrement :: rest, s =>
      if s.dp < s.tape.length then
        if s.tape.getD s.dp 0 = 0 then some (.fail .cellUnderflow s)
        else run fuel rest { s with tape := s.tape.set s.dp (s.tape.getD s.dp 0 - 1) }
      else some (.fail .indexOutOfBounds s)
  | .write :: rest, s =>
      if s.dp < s.tape.length then
        run fuel rest { s with output := s.output ++ [s.tape.getD s.dp 0] }
      else some (.fail .indexOutOfBounds s)
  | .read :: rest, s =>
      match s.input with
      | [] => some (.fail .inputExhausted s)
      | b :: bs =>
          if s.dp < s.tape.length then
            run fuel rest { s with tape := s.tape.set s.dp b, input := bs }
          else some (.fail .indexOutOfBounds { s with input := bs })
  | .loop body :: rest, s =>
      if s.dp < s.tape.length then
        if s.tape.getD s.dp 0 = 0 then run fuel rest s
        else
          match fuel with
          | 0 => none
          | f + 1 =>
              match run f body s with
              | some (.ok s') => run f (.loop body :: rest) s'
              | r => r
      else some (.fail .indexOutOfBounds s)
termination_by instrs => (fuel, sizeOf instrs)

/-- The fixed tape and initial pointer of execute mode (main.rs:170-171):
1024 zero cells, data pointer 512. -/
def initialState (input : List Nat) : EvalState :=
  { tape := List.replicate 1024 0, dp := 512, input := input, output := [] }

/-- `b startsWithL p` : `p` is an initial segment of `b`. -/
def startsWithL : List Char → List Char → Bool
  | _, [] => true
  | [], _ :: _ => false
  | c :: cs, p :: ps => c = p && startsWithL cs ps

/-- `str::replace` (as invoked in main.rs:183-191): replace every
non-overlapping occurrence of `pat`, left to right.  The patterns used by
the translator are all single characters, hence never empty. -/
def replaceStr (pat rep : List Char) (s : List Char) : List Char :=
  match s with
  | [] => []
  | c :: rest =>
      if pat.length = 0 then c :: rest
      else if startsWithL (c :: rest) pat then
        rep ++ replaceStr pat rep (rest.drop (pat.length - 1))
      else c :: replaceStr pat rep rest
termination_by s.length
decreasing_by
  all_goals simp [List.length_drop]
  omega

/-- The token the Scanner recognizes for repetition count `k`:
`"sv"` followed by `k` copies of `'o'`. -/
def token (k : Nat) : List Char := 's' :: 'v' :: List.replicate k 'o'

/-- The translate-mode substitution chain (main.rs:183-191), applied in
source order: `+ - [ ] < > . ,` become the tokens of counts 1 through 8. -/
def translate (source : List Char) : List Char :=
  replaceStr [','] (token 8) <|
    replaceStr ['.'] (token 7) <|
      replaceStr ['>'] (token 6) <|
        replaceStr ['<'] (token 5) <|
          replaceStr [']'] (token 4) <|
            replaceStr ['['] (token 3) <|
              replaceStr ['-'] (token 2) <|
                replaceStr ['+'] (token 1) source

/-! ## List helper lemmas -/

theorem getD_set_self (l : List Nat) (n a : Nat) (h : n < l.length) :
    (l.set n a).getD n 0 = a := by
  induction l generalizing n with
  | nil => simp at h
  | cons c rest ih =>
      cases n with
      | zero => simp
      | succ m => simpa using ih m (by simpa using h)

theorem set_getD_self (l : List Nat) (n : Nat) :
    l.set n (l.getD n 0) = l := by
  induction l generalizing n with
  | nil => simp
  | cons c rest ih =>
      cases n with
      | zero => simp
      | succ m => simpa using ih m

/-! ## Evaluator lemmas -/

/-- One `DecrementPointer` at pointer 0 fails at once: `*data_pointer -= 1`
underflows `usize` (main.rs:129). -/
theorem run_decPointer_zero (fuel : Nat) (rest : List Instruction) (s : EvalState)
    (h : s.dp = 0) :
    run fuel (.decrementPointer :: rest) s = some (.fail .pointerUnderflow s) := by
  simp [run, h]

/-- `IncrementPointer` never checks the tape bound: it always proceeds with
the pointer moved one right (main.rs:128). -/
theorem run_incPointer (fuel : Nat) (rest : List Instruction) (s : EvalState) :
    run fuel (.incrementPointer :: rest) s = run fuel rest { s with dp := s.dp + 1 } := by
  simp [run]

/-- Running `n + 1` consecutive `DecrementPointer`s from pointer `n`
performs `n` successful moves and fails on move `n + 1`, leaving the
pointer at 0. -/
theorem run_decPointer_replicate (n : Nat) :
    ∀ (fuel : Nat) (s : EvalState), s.dp = n →
      run fuel (List.replicate (n + 1) .decrementPointer) s =
        some (.fail .pointerUnderflow { s with dp := 0 }) := by
  induction n with
  | zero =>
      intro fuel s h
      have hs : { s with dp := 0 } = s := by cases s; simp_all
      rw [hs]
      simpa using run_decPointer_zero fuel _ s h
  | succ m ih =>
      intro fuel s h
      have h0 : s.dp ≠ 0 := by omega
      have step : run fuel (List.replicate (m + 2) .decrementPointer) s =
          run fuel (List.replicate (m + 1) .decrementPointer) { s with dp := s.dp - 1 } := by
        rw [List.replicate_succ]
        simp [run, h0]
      rw [step, ih fuel { s with dp := s.dp - 1 } (by simp [h])]

/-- Incrementing the cell from 255 repeatedly: with `c + k = 255`, running
`k + 1` `Increment`s on the one-cell tape `[c]` drives the cell to 255 and
fails with a `u8` overflow on the last one. -/
theorem run_inc_overflow (k : Nat) :
    ∀ (c : Nat) (inp out : List Nat) (fuel : Nat), c + k = 255 →
      run fuel (List.replicate (k + 1) .increment) ⟨[c], 0, inp, out⟩ =
        some (.fail .cellOverflow ⟨[255], 0, inp, out⟩) := by
  induction k with
  | zero =>
      intro c inp out fuel hc
      have : c = 255 := by omega
      subst this
      simp [run]
  | succ m ih =>
      intro c inp out fuel hc
      have hne : c ≠ 255 := by omega
      have step : run fuel (List.replicate (m + 2) .increment) ⟨[c], 0, inp, out⟩ =
          run fuel (List.replicate (m + 1) .increment) ⟨[c + 1], 0, inp, out⟩ := by
        rw [List.replicate_succ]
        simp [run, hne]
      rw [step, ih (c + 1) inp out fuel (by omega)]

/-- C1 (amended): `DecrementPointer` at pointer 0 fails immediately (the
`usize` underflow panic, the code's pointer-out-of-bounds condition), and
513 consecutive `DecrementPointer`s from the initial offset 512 fail on the
513th move; but `IncrementPointer` at pointer `L - 1` does **not** fail:
the pointer simply becomes `L`, and only a later tape access through it
can fail. -/
theorem claim_C1 :
    (∀ (fuel : Nat) (rest : List Instruction) (s : EvalState), s.dp = 0 →
        run fuel (.decrementPointer :: rest) s = some (.fail .pointerUnderflow s)) ∧
    (∀ (fuel : Nat) (s : EvalState), s.dp = s.tape.length - 1 →
        run fuel [.incrementPointer] s = some (.ok { s with dp := s.dp + 1 })) ∧
    (∀ fuel : Nat, run fuel (List.replicate 513 .decrementPointer) (initialState []) =
        some (.fail .pointerUnderflow { initialState [] with dp := 0 })) := by
  refine ⟨fun fuel rest s h => run_decPointer_zero fuel rest s h, ?_, ?_⟩
  · intro fuel s _
    simp [run]
  · intro fuel
    exact run_decPointer_replicate 512 fuel (initialState []) rfl

/-- C1 counterexample: on a 1-cell tape with the pointer at `L - 1 = 0`,
a `MoveRight` (`IncrementPointer`) instruction succeeds — it does not fail
with a pointer-out-of-bounds error as the claim states. -/
theorem claim_C1_cex :
    run 1 [.incrementPointer] ⟨[0], 0, [], []⟩ = some (.ok ⟨[0], 1, [], []⟩) := by
  simp [run]

/-- Witness for `claim_C1` at concrete inputs. -/
theorem claim_C1_witness :
    run 0 [Instruction.decrementPointer] ⟨[0], 0, [], []⟩ =
        some (.fail .pointerUnderflow ⟨[0], 0, [], []⟩) ∧
    run 0 [Instruction.incrementPointer] ⟨[0, 0], 1, [], []⟩ =
        some (.ok ⟨[0, 0], 2, [], []⟩) ∧
    run 7 (List.replicate 513 .decrementPointer) (initialState []) =
        some (.fail .pointerUnderflow { initialState [] with dp := 0 }) :=
  ⟨claim_C1.1 0 [] ⟨[0], 0, [], []⟩ rfl,
   claim_C1.2.1 0 ⟨[0, 0], 1, [], []⟩ rfl,
   claim_C1.2.2 7⟩

/-- C2 (the code contradicts it): under the checked arithmetic the compiled
program uses, `Increment` on a cell holding 255 and `Decrement` on a cell
holding 0 do not wrap — they abort with an overflow/underflow panic, and
256 consecutive `Increment`s on a zero cell abort on the 256th. -/
theorem claim_C2 :
    run 1 [.increment] ⟨[255], 0, [], []⟩ =
        some (.fail .cellOverflow ⟨[255], 0, [], []⟩) ∧
    run 1 [.decrement] ⟨[0], 0, [], []⟩ =
        some (.fail .cellUnderflow ⟨[0], 0, [], []⟩) ∧
    run 1 (List.replicate 256 .increment) ⟨[0], 0, [], []⟩ =
        some (.fail .cellOverflow ⟨[255], 0, [], []⟩) :=
  ⟨by simp [run], by simp [run], run_inc_overflow 255 0 [] [] 1 rfl⟩

/-- C9: `Read` with input available consumes exactly its first byte and
stores it at the cell the data pointer addresses; `Read` with the input
exhausted fails with `InputExhausted` at once (the `expect` on
`read_exact`, main.rs:133-139). -/
theorem claim_C9 :
    (∀ (fuel : Nat) (rest : List Instruction) (s : EvalState) (b : Nat) (bs : List Nat),
        s.input = b :: bs → s.dp < s.tape.length →
        run fuel (.read :: rest) s =
          run fuel rest { s with tape := s.tape.set s.dp b, input := bs }) ∧
    (∀ (fuel : Nat) (rest : List Instruction) (s : EvalState), s.input = [] →
        run fuel (.read :: rest) s = some (.fail .inputExhausted s)) := by
  constructor
  · intro fuel rest s b bs hin hdp
    simp [run, hin, hdp]
  · intro fuel rest s hin
    simp [run, hin]

/-- Witness for `claim_C9` at concrete inputs. -/
theorem claim_C9_witness :
    run 0 [Instruction.read] ⟨[0], 0, [7], []⟩ = run 0 [] ⟨[7], 0, [], []⟩ ∧
    run 0 [Instruction.read] ⟨[0], 0, [], []⟩ =
        some (.fail .inputExhausted ⟨[0], 0, [], []⟩) :=
  ⟨claim_C9.1 0 [] ⟨[0], 0, [7], []⟩ 7 [] rfl (by decide),
   claim_C9.2 0 [] ⟨[0], 0, [], []⟩ rfl⟩

/-- The countdown loop: a `Loop` whose body is a single `Decrement`,
entered with the addressed cell holding `v`, terminates after exactly `v`
iterations (fuel `v` suffices, any smaller fuel does not) and zeroes the
cell. -/
theorem run_loop_dec (v : Nat) :
    ∀ (s : EvalState), s.dp < s.tape.length → s.tape.getD s.dp 0 = v →
      run v [.loop [.decrement]] s = some (.ok { s with tape := s.tape.set s.dp 0 }) ∧
      ∀ g, g < v → run g [.loop [.decrement]] s = none := by
  induction v with
  | zero =>
      intro s hdp hcell
      rw [List.getD_eq_getElem _ 0 hdp] at hcell
      constructor
      · have hset : s.tape.set s.dp 0 = s.tape := by
          have hd := set_getD_self s.tape s.dp
          rwa [List.getD_eq_getElem _ 0 hdp, hcell] at hd
        have hss : ({ s with tape := s.tape.set s.dp 0 } : EvalState) = s := by
          cases s; simp_all
        rw [hss]
        simp [run, hdp, hcell]
      · intro g hg; omega
  | succ m ih =>
      intro s hdp hcell
      rw [List.getD_eq_getElem _ 0 hdp] at hcell
      have hne : s.tape[s.dp] ≠ 0 := by omega
      have hbody : ∀ f : Nat, run f [Instruction.decrement] s =
          some (.ok { s with tape := s.tape.set s.dp m }) := by
        intro f
        simp [run, hdp, hne, hcell]
      have hdp' : s.dp < (s.tape.set s.dp m).length := by simpa using hdp
      have hcell' : (s.tape.set s.dp m).getD s.dp 0 = m := getD_set_self s.tape s.dp m hdp
      obtain ⟨ihok, ihnone⟩ := ih { s with tape := s.tape.set s.dp m } hdp' hcell'
      constructor
      · have step : run (m + 1) [Instruction.loop [Instruction.decrement]] s =
            run m [Instruction.loop [Instruction.decrement]]
              { s with tape := s.tape.set s.dp m } := by
          simp [run, hdp, hne, hbody m]
        rw [step, ihok]
        simp [List.set_set]
      · intro g hg
        cases g with
        | zero => simp [run, hdp, hne]
        | succ g' =>
            have step : run (g' + 1) [Instruction.loop [Instruction.decrement]] s =
                run g' [Instruction.loop [Instruction.decrement]]
                  { s with tape := s.tape.set s.dp m } := by
              simp [run, hdp, hne, hbody g']
            rw [step, ihnone g' (by omega)]

/-- C6: a `Loop(body)` re-executes `body` in full while the cell currently
addressed by the data pointer is nonzero, re-checking the condition only
between full passes (at the cell the pointer addresses at re-entry); a
loop whose body is one `Decrement`, entered with the cell at `v`,
terminates after exactly `v` iterations and zeroes the cell. -/
theorem claim_C6 :
    (∀ (fuel : Nat) (body rest : List Instruction) (s : EvalState),
        s.dp < s.tape.length → s.tape.getD s.dp 0 = 0 →
        run fuel (.loop body :: rest) s = run fuel rest s) ∧
    (∀ (fuel : Nat) (body rest : List Instruction) (s : EvalState),
        s.dp < s.tape.length → s.tape.getD s.dp 0 ≠ 0 →
        run (fuel + 1) (.loop body :: rest) s =
          match run fuel body s with
          | some (.ok s') => run fuel (.loop body :: rest) s'
          | r => r) ∧
    (∀ (v : Nat) (s : EvalState), s.dp < s.tape.length → s.tape.getD s.dp 0 = v →
        run v [.loop [.decrement]] s =
            some (.ok { s with tape := s.tape.set s.dp 0 }) ∧
        ∀ g, g < v → run g [.loop [.decrement]] s = none) := by
  refine ⟨?_, ?_, fun v s hdp hcell => run_loop_dec v s hdp hcell⟩
  · intro fuel body rest s hdp hcell
    rw [List.getD_eq_getElem _ 0 hdp] at hcell
    rw [run.eq_def]
    simp [hdp, hcell]
  · intro fuel body rest s hdp hcell
    rw [List.getD_eq_getElem _ 0 hdp] at hcell
    rw [run.eq_def]
    simp [hdp, hcell]

/-- Witness for `claim_C6` at concrete inputs: a zero cell skips the loop,
a nonzero cell unfolds one iteration, and the countdown loop from 5
terminates in exactly 5 iterations. -/
theorem claim_C6_witness :
    (run 3 [Instruction.loop [Instruction.increment]] ⟨[0], 0, [], []⟩ =
        run 3 [] ⟨[0], 0, [], []⟩) ∧
    (run 1 [Instruction.loop [Instruction.decrement]] ⟨[1], 0, [], []⟩ =
        match run 0 [Instruction.decrement] ⟨[1], 0, [], []⟩ with
        | some (.ok s') => run 0 [Instruction.loop [Instruction.decrement]] s'
        | r => r) ∧
    (run 5 [Instruction.loop [Instruction.decrement]] ⟨[5], 0, [], []⟩ =
        some (.ok ⟨[0], 0, [], []⟩) ∧
     run 4 [Instruction.loop [Instruction.decrement]] ⟨[5], 0, [], []⟩ = none) :=
  ⟨claim_C6.1 3 [.increment] [] ⟨[0], 0, [], []⟩ (by decide) (by decide),
   claim_C6.2.1 0 [.decrement] [] ⟨[1], 0, [], []⟩ (by decide) (by decide),
   (claim_C6.2.2 5 ⟨[5], 0, [], []⟩ (by decide) (by decide)).1,
   (claim_C6.2.2 5 ⟨[5], 0, [], []⟩ (by decide) (by decide)).2 4 (by decide)⟩

/-- C10: whenever execution terminates — normally or with an error — the
tape has the same length as at entry; the evaluator only ever rewrites
cells in place (`List.set`) and moves the pointer. -/
theorem claim_C10 :
    ∀ (fuel : Nat) (instrs : List Instruction) (s : EvalState) (r : RunResult),
      run fuel instrs s = some r → r.state.tape.length = s.tape.length := by
  intro fuel
  induction fuel using Nat.strong_induction_on with
  | _ fuel IHf =>
    intro instrs
    induction instrs with
    | nil =>
        intro s r h
        simp [run] at h
        subst h
        rfl
    | cons instr rest IHl =>
        intro s r h
        cases instr with
        | incrementPointer =>
            rw [run.eq_def] at h
            simpa using IHl { s with dp := s.dp + 1 } r (by simpa using h)
        | decrementPointer =>
            rw [run.eq_def] at h
            simp at h
            split at h
            · cases h; rfl
            · simpa using IHl _ r h
        | increment =>
            rw [run.eq_def] at h
            simp at h
            split at h
            · split at h
              · cases h; rfl
              · have := IHl _ r h
                simpa using this
            · cases h; rfl
        | decrement =>
            rw [run.eq_def] at h
            simp at h
            split at h
            · split at h
              · cases h; rfl
              · have := IHl _ r h
                simpa using this
            · cases h; rfl
        | write =>
            rw [run.eq_def] at h
            simp at h
            split at h
            · simpa using IHl _ r h
            · cases h; rfl
        | read =>
            rw [run.eq_def] at h
            simp at h
            split at h
            · cases h; rfl
            · split at h
              · have := IHl _ r h
                simpa using this
              · cases h; rfl
        | loop body =>
            rw [run.eq_def] at h
            simp at h
            split at h
            · split at h
              · exact IHl _ r h
              · cases fuel with
                | zero => cases h
                | succ f =>
                    simp at h
                    cases hb : run f body s with
                    | none => rw [hb] at h; cases h
                    | some rb =>
                        rw [hb] at h
                        cases rb with
                        | ok s' =>
                            have h1 : s'.tape.length = s.tape.length := by
                              have := IHf f (by omega) body s (.ok s') hb
                              simpa using this
                            have h2 := IHf f (by omega) (.loop body :: rest) s' r h
                            omega
                        | fail e s' =>
                            cases h
                            have := IHf f (by omega) body s (.fail e s') hb
                            simpa using this
            · cases h; rfl

/-- Witness for `claim_C10` at a concrete run. -/
theorem claim_C10_witness :
    (RunResult.ok (⟨[0, 1, 0], 1, [], []⟩ : EvalState)).state.tape.length =
      ([0, 0, 0] : List Nat).length :=
  claim_C10 1 [.increment] ⟨[0, 0, 0], 1, [], []⟩ (.ok ⟨[0, 1, 0], 1, [], []⟩)
    (by rw [run.eq_def]; simp [run])

/-! ## Scanner lemmas -/

theorem countO_nil : countO [] = 0 := rfl

theorem countO_cons_ne {c : Char} (rest : List Char) (h : c ≠ 'o') :
    countO (c :: rest) = 0 := by
  rw [countO.eq_def]
  simp [h]

theorem countO_replicate_append (k : Nat) (rest : List Char) :
    countO (List.replicate k 'o' ++ rest) = k + countO rest := by
  induction k with
  | zero => simp
  | succ m ih =>
      simp [List.replicate_succ, countO]
      omega

/-- Unfolding of the Scanner at a marker: after `"sv"`, a run of exactly
`k` `'o'`s (the next character of `rest` is not `'o'`) contributes the
opcode `opOfCount k` selects — or nothing — and scanning resumes right
after the run. -/
theorem lex_token (k : Nat) (rest : List Char) (h : countO rest = 0) :
    lex ('s' :: 'v' :: (List.replicate k 'o' ++ rest)) =
      (opOfCount k).toList ++ lex rest := by
  have hc : countO (List.replicate k 'o' ++ rest) = k := by
    rw [countO_replicate_append, h]
    omega
  have hd : (List.replicate k 'o' ++ rest).drop k = rest := by
    have hdl := List.drop_left (List.replicate k 'o') rest
    simpa using hdl
  simp only [lex, hc, hd]
  cases opOfCount k <;> simp

/-- Scanning skips a character that does not open an `"sv"` marker. -/
theorem lex_skip (c1 : Char) (rest : List Char)
    (h : ∀ c2 tail, rest = c2 :: tail → ¬(c1 = 's' ∧ c2 = 'v')) :
    lex (c1 :: rest) = lex rest := by
  cases rest with
  | nil =>
      rw [lex.eq_def]
      simp [lex]
  | cons c2 tail =>
      have hne := h c2 tail rfl
      by_cases h1 : c1 = 's'
      · have h2 : c2 ≠ 'v' := by
          intro hv
          exact hne ⟨h1, hv⟩
        rw [lex.eq_def]
        simp [h2]
      · rw [lex.eq_def]
        simp [h1]

/-- `opOfCount` is `none` exactly outside 1..8. -/
theorem opOfCount_eq_none (k : Nat) (h : ¬(1 ≤ k ∧ k ≤ 8)) : opOfCount k = none := by
  match k, h with
  | 0, _ => rfl
  | n + 9, _ => rfl
  | 1, h | 2, h | 3, h | 4, h | 5, h | 6, h | 7, h | 8, h => omega

/-- C7: at a marker (`"sv"` followed by a maximal run of `k` `'o'`s),
counts 1–8 emit exactly the table's opcode — 1 `Inc`, 2 `Dec`,
3 `LoopBegin`, 4 `LoopEnd`, 5 `MoveLeft`, 6 `MoveRight`, 7 `Write`,
8 `Read` — and a count of 0 or more than 8 emits nothing; in every case
scanning resumes immediately after the whole counted run. -/
theorem claim_C7 :
    ∀ (k : Nat) (rest : List Char), countO rest = 0 →
      lex ('s' :: 'v' :: (List.replicate k 'o' ++ rest)) =
        (if k = 1 then [OpCode.increment]
         else if k = 2 then [OpCode.decrement]
         else if k = 3 then [OpCode.loopBegin]
         else if k = 4 then [OpCode.loopEnd]
         else if k = 5 then [OpCode.decrementPointer]
         else if k = 6 then [OpCode.incrementPointer]
         else if k = 7 then [OpCode.write]
         else if k = 8 then [OpCode.read]
         else []) ++ lex rest := by
  intro k rest h
  rw [lex_token k rest h]
  congr 1
  match k with
  | 0 => rfl
  | 1 => rfl
  | 2 => rfl
  | 3 => rfl
  | 4 => rfl
  | 5 => rfl
  | 6 => rfl
  | 7 => rfl
  | 8 => rfl
  | n + 9 => rfl

/-- Witness for `claim_C7`: a count of 5 after the marker scans to a
single `MoveLeft` (`DecrementPointer`). -/
theorem claim_C7_witness :
    lex ('s' :: 'v' :: (List.replicate 5 'o' ++ ['x'])) =
      (if (5 : Nat) = 1 then [OpCode.increment]
       else if (5 : Nat) = 2 then [OpCode.decrement]
       else if (5 : Nat) = 3 then [OpCode.loopBegin]
       else if (5 : Nat) = 4 then [OpCode.loopEnd]
       else if (5 : Nat) = 5 then [OpCode.decrementPointer]
       else if (5 : Nat) = 6 then [OpCode.incrementPointer]
       else if (5 : Nat) = 7 then [OpCode.write]
       else if (5 : Nat) = 8 then [OpCode.read]
       else []) ++ lex ['x'] :=
  claim_C7 5 ['x'] rfl

/-- A recognized token marker at position `i` of the source: the prefix
`"sv"` followed by a maximal `'o'`-run of length 1 through 8. -/
def tokenAt (s : List Char) (i : Nat) : Prop :=
  (s.drop i).take 2 = ['s', 'v'] ∧
  1 ≤ countO (s.drop (i + 2)) ∧ countO (s.drop (i + 2)) ≤ 8

instance (s : List Char) (i : Nat) : Decidable (tokenAt s i) := by
  unfold tokenAt
  infer_instance

theorem tokenAt_drop (s : List Char) (m i : Nat) :
    tokenAt (s.drop m) i ↔ tokenAt s (m + i) := by
  unfold tokenAt
  rw [List.drop_drop, List.drop_drop, show m + (i + 2) = m + i + 2 from by omega]

/-- C8: the Scanner is total — it is a function returning an opcode list
for every source — and on any source with no recognized token marker at
any position it returns the empty opcode sequence. -/
theorem claim_C8 :
    ∀ s : List Char, (∀ i, i < s.length → ¬ tokenAt s i) → lex s = [] := by
  have H : ∀ (n : Nat) (s : List Char), s.length ≤ n →
      (∀ i, i < s.length → ¬ tokenAt s i) → lex s = [] := by
    intro n
    induction n using Nat.strong_induction_on with
    | _ n IH =>
      intro s hlen hno
      have skipStep : ∀ (c1 : Char) (rest : List Char), s = c1 :: rest →
          lex rest = [] → (∀ c2 tail, rest = c2 :: tail → ¬(c1 = 's' ∧ c2 = 'v')) →
          lex s = [] := by
        intro c1 rest hs hrest hne
        subst hs
        rw [lex_skip c1 rest hne]
        exact hrest
      have dropTail : ∀ m, 0 < m →
          (∀ i, i < (s.drop m).length → ¬ tokenAt (s.drop m) i) := by
        intro m _ i hi
        rw [tokenAt_drop]
        refine hno _ ?_
        rw [List.length_drop] at hi
        omega
      cases hs : s with
      | nil => simp [lex]
      | cons c1 rest =>
        cases hr : rest with
        | nil =>
            rw [lex.eq_def]
            simp [lex]
        | cons c2 tail =>
          subst hs
          subst hr
          by_cases h1 : c1 = 's'
          · by_cases h2 : c2 = 'v'
            · subst h1
              subst h2
              by_cases hk : 1 ≤ countO tail ∧ countO tail ≤ 8
              · exact absurd ⟨by simp, by simpa using hk.1, by simpa using hk.2⟩
                  (hno 0 (by simp))
              · have hnone : opOfCount (countO tail) = none := opOfCount_eq_none _ hk
                have heq : lex ('s' :: 'v' :: tail) = lex (tail.drop (countO tail)) := by
                  simp only [lex, hnone]
                rw [heq]
                have hsub : tail.drop (countO tail) =
                    ('s' :: 'v' :: tail).drop (2 + countO tail) := by
                  rw [show 2 + countO tail = countO tail + 2 from by omega]
                  rfl
                rw [hsub]
                refine IH (('s' :: 'v' :: tail).drop (2 + countO tail)).length ?_ _
                  le_rfl (dropTail _ (by omega))
                rw [List.length_drop]
                simp only [List.length_cons] at hlen ⊢
                omega
            · refine skipStep c1 (c2 :: tail) rfl ?_
                (fun c2' tail' heq hsv => h2 (by injection heq with e1 _; rw [e1]; exact hsv.2))
              have : c2 :: tail = (c1 :: c2 :: tail).drop 1 := rfl
              rw [this]
              refine IH ((c1 :: c2 :: tail).drop 1).length ?_ _ le_rfl (dropTail 1 (by omega))
              rw [List.length_drop]
              simp only [List.length_cons] at hlen ⊢
              omega
          · refine skipStep c1 (c2 :: tail) rfl ?_
              (fun c2' tail' _ hsv => h1 hsv.1)
            have : c2 :: tail = (c1 :: c2 :: tail).drop 1 := rfl
            rw [this]
            refine IH ((c1 :: c2 :: tail).drop 1).length ?_ _ le_rfl (dropTail 1 (by omega))
            rw [List.length_drop]
            simp only [List.length_cons] at hlen ⊢
            omega
  intro s hno
  exact H s.length s le_rfl hno

/-- Witness for `claim_C8`: a marker-free source scans to no opcodes. -/
theorem claim_C8_witness : lex ['h', 'i', ' ', 's', 'v', 'x'] = [] :=
  claim_C8 ['h', 'i', ' ', 's', 'v', 'x'] (by decide)

/-! ## Translator lemmas -/

/-- The eight symbols of the conventional encoding (main.rs:183-191). -/
def svSymbols : List Char := ['+', '-', '[', ']', '<', '>', '.', ',']

/-- The symbol → opcode correspondence the round-trip claim asserts: each
conventional symbol, via its token (the inverse of the Scanner's
count → opcode table), denotes one opcode. -/
def symOp : Char → Option OpCode
  | '+' => some .increment
  | '-' => some .decrement
  | '[' => some .loopBegin
  | ']' => some .loopEnd
  | '<' => some .decrementPointer
  | '>' => some .incrementPointer
  | '.' => some .write
  | ',' => some .read
  | _ => none

theorem replaceStr_single (p : Char) (rep : List Char) (c : Char) (rest : List Char) :
    replaceStr [p] rep (c :: rest) =
      if c = p then rep ++ replaceStr [p] rep rest
      else c :: replaceStr [p] rep rest := by
  by_cases h : c = p <;> simp [replaceStr, startsWithL, h]

/-- A single-character replacement distributes over concatenation (a
one-character pattern cannot straddle the boundary). -/
theorem replaceStr_append1 (p : Char) (rep : List Char) :
    ∀ a b : List Char,
      replaceStr [p] rep (a ++ b) = replaceStr [p] rep a ++ replaceStr [p] rep b := by
  intro a
  induction a with
  | nil =>
      intro b
      simp [replaceStr]
  | cons c a' ih =>
      intro b
      rw [List.cons_append, replaceStr_single, replaceStr_single]
      by_cases h : c = p <;> simp [h, ih]

/-- The whole translation distributes over concatenation. -/
theorem translate_append (a b : List Char) :
    translate (a ++ b) = translate a ++ translate b := by
  simp [translate, replaceStr_append1]

/-- The translation of no source is no output. -/
theorem translate_nil : translate [] = [] := by
  simp [translate, replaceStr]

/-- Each conventional symbol translates to its token, and that token's
count selects exactly the opcode `symOp` assigns the symbol. -/
theorem translate_single_sym (c : Char) (hc : c ∈ svSymbols) :
    ∃ (k : Nat) (op : OpCode), translate [c] = token k ∧
      opOfCount k = some op ∧ symOp c = some op := by
  fin_cases hc
  · exact ⟨1, .increment,
      by simp [translate, replaceStr, startsWithL, token, List.replicate], rfl, rfl⟩
  · exact ⟨2, .decrement,
      by simp [translate, replaceStr, startsWithL, token, List.replicate], rfl, rfl⟩
  · exact ⟨3, .loopBegin,
      by simp [translate, replaceStr, startsWithL, token, List.replicate], rfl, rfl⟩
  · exact ⟨4, .loopEnd,
      by simp [translate, replaceStr, startsWithL, token, List.replicate], rfl, rfl⟩
  · exact ⟨5, .decrementPointer,
      by simp [translate, replaceStr, startsWithL, token, List.replicate], rfl, rfl⟩
  · exact ⟨6, .incrementPointer,
      by simp [translate, replaceStr, startsWithL, token, List.replicate], rfl, rfl⟩
  · exact ⟨7, .write,
      by simp [translate, replaceStr, startsWithL, token, List.replicate], rfl, rfl⟩
  · exact ⟨8, .read,
      by simp [translate, replaceStr, startsWithL, token, List.replicate], rfl, rfl⟩

/-- A source made only of conventional symbols translates to a string that
is empty or begins with `'s'`, so no `'o'`-run can leak across a token
boundary. -/
theorem countO_translate (s : List Char) (h : ∀ c ∈ s, c ∈ svSymbols) :
    countO (translate s) = 0 := by
  cases s with
  | nil => rw [translate_nil]; rfl
  | cons c s' =>
      have hc : c ∈ svSymbols := h c (List.mem_cons_self c s')
      obtain ⟨k, op, htr, -, -⟩ := translate_single_sym c hc
      rw [show c :: s' = [c] ++ s' from rfl, translate_append, htr, token,
        List.cons_append, List.cons_append]
      exact countO_cons_ne _ (by decide)

/-- Scanning a translated all-symbol source yields exactly the opcode
denoted by each symbol, in order. -/
theorem lex_translate (s : List Char) (h : ∀ c ∈ s, c ∈ svSymbols) :
    lex (translate s) = s.filterMap symOp := by
  induction s with
  | nil => rw [translate_nil]; simp [lex]
  | cons c s' ih =>
      have hc : c ∈ svSymbols := h c (List.mem_cons_self c s')
      have hs' : ∀ c' ∈ s', c' ∈ svSymbols := fun c' hc' => h c' (List.mem_cons_of_mem c hc')
      have hcount : countO (translate s') = 0 := countO_translate s' hs'
      obtain ⟨k, op, htr, hop, hsym⟩ := translate_single_sym c hc
      rw [show c :: s' = [c] ++ s' from rfl, translate_append, htr, token,
        List.cons_append, List.cons_append]
      rw [lex_token k _ hcount, hop, ih hs']
      simp [List.filterMap_cons, hsym]

/-- C3 (amended): for sources made only of the eight conventional symbols,
translating and then scanning yields exactly the corresponding opcode per
symbol — hence structuring the translated text gives the identical
instruction tree as structuring the equivalent hand-written
token-vocabulary program.  (For sources with arbitrary other characters
the round-trip fails: see the counterexample.) -/
theorem claim_C3 :
    ∀ s : List Char, (∀ c ∈ s, c ∈ svSymbols) →
      lex (translate s) = s.filterMap symOp ∧
      parse (lex (translate s)) = parse (s.filterMap symOp) := by
  intro s h
  have h1 := lex_translate s h
  exact ⟨h1, by rw [h1]⟩

/-- C3 counterexample: `"+o"` — an `Increment` symbol followed by the
passthrough comment character `'o'` — translates to `"svoo"`, which scans
as a `Decrement`; the hand-written token program with the same symbol
structure, `"svo"` followed by comment text, scans as an `Increment`.  A
passthrough character can merge with an emitted token and change the
program. -/
theorem claim_C3_cex :
    lex (translate ['+', 'o']) = [OpCode.decrement] ∧
    lex ['s', 'v', 'o', 'x'] = [OpCode.increment] ∧
    [OpCode.decrement] ≠ [OpCode.increment] := by
  refine ⟨?_, ?_, by decide⟩
  · simp [translate, replaceStr, startsWithL, token, List.replicate, lex, countO, opOfCount]
  · simp [lex, countO, opOfCount]

/-- Witness for `claim_C3`: the source `"+[-]"` translates and scans to
its four opcodes. -/
theorem claim_C3_witness :
    lex (translate ['+', '[', '-', ']']) =
        List.filterMap symOp ['+', '[', '-', ']'] ∧
    parse (lex (translate ['+', '[', '-', ']'])) =
        parse (List.filterMap symOp ['+', '[', '-', ']']) :=
  claim_C3 ['+', '[', '-', ']'] (by decide)

/-! ## Structurer lemmas -/

/-- Contribution of one opcode to the nesting depth. -/
def depthStep : OpCode → Int
  | .loopBegin => 1
  | .loopEnd => -1
  | _ => 0

/-- Net nesting depth of an opcode sequence. -/
def depth (ops : List OpCode) : Int := (ops.map depthStep).sum

/-- The `Option<Instruction>` of the depth-0 match in `fn parse`
(main.rs:75-90): the six simple opcodes map to their instruction,
`LoopBegin`/`LoopEnd` to `none` (they are handled by control flow). -/
def simpleInstr : OpCode → Option Instruction
  | .incrementPointer => some .incrementPointer
  | .decrementPointer => some .decrementPointer
  | .increment => some .increment
  | .decrement => some .decrement
  | .write => some .write
  | .read => some .read
  | .loopBegin => none
  | .loopEnd => none

theorem flatten_append (a b : List Instruction) :
    flatten (a ++ b) = flatten a ++ flatten b := by
  induction a with
  | nil => simp [flatten]
  | cons x r ih => cases x <;> simp [flatten, ih]

theorem flatten_simple (op : OpCode) (h1 : op ≠ .loopBegin) (h2 : op ≠ .loopEnd) :
    flatten (simpleInstr op).toList = [op] := by
  cases op <;> simp_all [simpleInstr, flatten]

theorem lt_of_drop_cons {α : Type} {ops : List α} {i : Nat} {op : α} {tail : List α}
    (h : ops.drop i = op :: tail) : i < ops.length := by
  by_contra hle
  rw [List.drop_eq_nil_of_le (by omega)] at h
  cases h

theorem getElem_of_drop_cons {α : Type} {ops : List α} {i : Nat} {op : α} {tail : List α}
    (h : ops.drop i = op :: tail) (hlt : i < ops.length) : ops[i] = op := by
  have h0 : (ops.drop i)[0]? = ops[i + 0]? := List.getElem?_drop ops i 0
  rw [h, Nat.add_zero, (List.getElem?_eq_some_getElem_iff ops i hlt).mpr trivial] at h0
  simp at h0
  exact h0.symm

theorem drop_succ_of_drop_cons {α : Type} {ops : List α} {i : Nat} {op : α} {tail : List α}
    (h : ops.drop i = op :: tail) : ops.drop (i + 1) = tail := by
  rw [← List.drop_drop 1 i ops, h]
  rfl

theorem drop_add_of_drop_append {α : Type} {ops : List α} {m : Nat} {a x : List α}
    (h : ops.drop m = a ++ x) : ops.drop (m + a.length) = x := by
  rw [← List.drop_drop a.length m ops, h, List.drop_left]

theorem take_drop_of_drop_append {α : Type} {ops : List α} {m : Nat} {a x : List α}
    (h : ops.drop m = a ++ x) : (ops.take (m + a.length)).drop m = a := by
  rw [List.drop_take, h]
  have : m + a.length - m = a.length := by omega
  rw [this, List.take_left]

/-! Step lemmas for `parseAux`, one per control-flow arm of the Rust
`for` loop. -/

theorem pa_done (ops : List OpCode) (i : Nat) (prog : List Instruction) (st ls : Nat)
    (h : ops.length ≤ i) :
    parseAux ops i prog st ls =
      if st ≠ 0 then .error (.unterminatedLoop ls) else .ok prog := by
  rw [parseAux.eq_def, dif_neg (by omega)]

theorem pa_simple (ops : List OpCode) (i : Nat) (prog : List Instruction) (ls : Nat)
    (op : OpCode) (h : i < ops.length) (hop : ops[i] = op)
    (h1 : op ≠ .loopBegin) (h2 : op ≠ .loopEnd) :
    parseAux ops i prog 0 ls =
      parseAux ops (i + 1) (prog ++ (simpleInstr op).toList) 0 ls := by
  rw [parseAux.eq_def, dif_pos h]
  cases op <;> simp_all [simpleInstr]

theorem pa_loopBegin (ops : List OpCode) (i : Nat) (prog : List Instruction) (ls : Nat)
    (h : i < ops.length) (hop : ops[i] = OpCode.loopBegin) :
    parseAux ops i prog 0 ls = parseAux ops (i + 1) prog 1 i := by
  rw [parseAux.eq_def, dif_pos h]
  simp [hop]

theorem pa_loopEnd_zero (ops : List OpCode) (i : Nat) (prog : List Instruction) (ls : Nat)
    (h : i < ops.length) (hop : ops[i] = OpCode.loopEnd) :
    parseAux ops i prog 0 ls = .error (.unmatchedLoopEnd i) := by
  rw [parseAux.eq_def, dif_pos h]
  simp [hop]

theorem pa_deep_loopBegin (ops : List OpCode) (i : Nat) (prog : List Instruction)
    (st ls : Nat) (h : i < ops.length) (hop : ops[i] = OpCode.loopBegin) (hst : st ≠ 0) :
    parseAux ops i prog st ls = parseAux ops (i + 1) prog (st + 1) ls := by
  rw [parseAux.eq_def, dif_pos h]
  simp [hop, hst]

theorem pa_deep_other (ops : List OpCode) (i : Nat) (prog : List Instruction)
    (st ls : Nat) (op : OpCode) (h : i < ops.length) (hop : ops[i] = op)
    (h1 : op ≠ .loopBegin) (h2 : op ≠ .loopEnd) (hst : st ≠ 0) :
    parseAux ops i prog st ls = parseAux ops (i + 1) prog st ls := by
  rw [parseAux.eq_def, dif_pos h]
  cases op <;> simp_all

theorem pa_loopEnd_close (ops : List OpCode) (i : Nat) (prog : List Instruction)
    (ls : Nat) (h : i < ops.length) (hop : ops[i] = OpCode.loopEnd) :
    parseAux ops i prog 1 ls =
      match parseAux ((ops.take i).drop (ls + 1)) 0 [] 0 0 with
      | .ok inner => parseAux ops (i + 1) (prog ++ [.loop inner]) 0 ls
      | .error e => .error e := by
  rw [parseAux.eq_def, dif_pos h]
  simp [hop]

theorem pa_deep_loopEnd (ops : List OpCode) (i : Nat) (prog : List Instruction)
    (st ls : Nat) (h : i < ops.length) (hop : ops[i] = OpCode.loopEnd) (hst : 2 ≤ st) :
    parseAux ops i prog st ls = parseAux ops (i + 1) prog (st - 1) ls := by
  rw [parseAux.eq_def, dif_pos h]
  have h1 : ¬ st = 0 := by omega
  have h2 : ¬ st - 1 = 0 := by omega
  simp [hop, h1, h2]

/-- At depth `st ≥ 1` the scan of `fn parse` skips over a balanced chunk,
leaving depth, program and recorded loop start unchanged (the enclosed
opcodes are re-examined only by the recursive slice parse). -/
theorem pa_skip {mid : List OpCode} (hb : Balanced mid) :
    ∀ (ops : List OpCode) (i : Nat) (prog : List Instruction) (st ls : Nat)
      (tail : List OpCode), 1 ≤ st → ops.drop i = mid ++ tail →
      parseAux ops i prog st ls = parseAux ops (i + mid.length) prog st ls := by
  induction hb with
  | nil =>
      intro ops i prog st ls tail _ _
      simp
  | @cons op rest h1 h2 hrest ih =>
      intro ops i prog st ls tail hst hdrop
      rw [List.cons_append] at hdrop
      have hlt := lt_of_drop_cons hdrop
      have hop := getElem_of_drop_cons hdrop hlt
      have hnext := drop_succ_of_drop_cons hdrop
      rw [pa_deep_other ops i prog st ls op hlt hop h1 h2 (by omega)]
      rw [ih ops (i + 1) prog st ls tail hst hnext]
      congr 1
      simp [List.length_cons]
      omega
  | @wrap inner rest hinner hrest ihInner ihRest =>
      intro ops i prog st ls tail hst hdrop
      simp only [List.cons_append, List.append_assoc] at hdrop
      have hlt := lt_of_drop_cons hdrop
      have hop := getElem_of_drop_cons hdrop hlt
      have hnext := drop_succ_of_drop_cons hdrop
      rw [pa_deep_loopBegin ops i prog st ls hlt hop (by omega)]
      rw [ihInner ops (i + 1) prog (st + 1) ls (.loopEnd :: (rest ++ tail)) (by omega) hnext]
      have hdropEnd : ops.drop (i + 1 + inner.length) = .loopEnd :: (rest ++ tail) :=
        drop_add_of_drop_append hnext
      have hltEnd := lt_of_drop_cons hdropEnd
      have hopEnd := getElem_of_drop_cons hdropEnd hltEnd
      have hnextEnd := drop_succ_of_drop_cons hdropEnd
      rw [pa_deep_loopEnd ops _ prog (st + 1) ls hltEnd hopEnd (by omega)]
      have hst1 : st + 1 - 1 = st := by omega
      rw [hst1]
      rw [ihRest ops _ prog st ls tail hst hnextEnd]
      congr 1
      simp [List.length_cons, List.length_append]
      omega

theorem depth_cons (op : OpCode) (l : List OpCode) :
    depth (op :: l) = depthStep op + depth l := by
  simp [depth]

theorem drop_eq_nil_length {α : Type} {ops : List α} {i : Nat} (h : ops.drop i = []) :
    ops.length ≤ i := by
  by_contra hlt
  have hlen := congrArg List.length h
  rw [List.length_drop] at hlen
  simp at hlen
  omega

/-- Scanning from depth `st ≥ 1` a remainder whose every prefix keeps the
total depth positive reaches the end of the input still inside a loop, so
the final check fails with the recorded loop start (main.rs:115-120). -/
theorem pa_unterminated (mid : List OpCode) :
    ∀ (ops : List OpCode) (i : Nat) (prog : List Instruction) (st ls : Nat),
      1 ≤ st → ops.drop i = mid →
      (∀ j, j ≤ mid.length → 0 < (st : Int) + depth (mid.take j)) →
      parseAux ops i prog st ls = .error (.unterminatedLoop ls) := by
  induction mid with
  | nil =>
      intro ops i prog st ls hst hdrop _
      rw [pa_done ops i prog st ls (drop_eq_nil_length hdrop)]
      rw [if_pos (by omega)]
  | cons op rest ih =>
      intro ops i prog st ls hst hdrop hdepth
      have hlt := lt_of_drop_cons hdrop
      have hop := getElem_of_drop_cons hdrop hlt
      have hnext := drop_succ_of_drop_cons hdrop
      by_cases hLB : op = .loopBegin
      · subst hLB
        rw [pa_deep_loopBegin ops i prog st ls hlt hop (by omega)]
        refine ih ops (i + 1) prog (st + 1) ls (by omega) hnext ?_
        intro j hj
        have hd := hdepth (j + 1) (by simp; omega)
        rw [List.take_succ_cons, depth_cons] at hd
        simp [depthStep] at hd
        push_cast
        omega
      · by_cases hLE : op = .loopEnd
        · subst hLE
          have hd1 := hdepth 1 (by simp)
          rw [List.take_succ_cons, depth_cons] at hd1
          simp [depthStep, depth] at hd1
          have hst2 : 2 ≤ st := by omega
          rw [pa_deep_loopEnd ops i prog st ls hlt hop hst2]
          refine ih ops (i + 1) prog (st - 1) ls (by omega) hnext ?_
          intro j hj
          have hd := hdepth (j + 1) (by simp; omega)
          rw [List.take_succ_cons, depth_cons] at hd
          simp [depthStep] at hd
          push_cast [Nat.cast_sub (by omega : 1 ≤ st)]
          omega
        · rw [pa_deep_other ops i prog st ls op hlt hop hLB hLE (by omega)]
          refine ih ops (i + 1) prog st ls hst hnext ?_
          intro j hj
          have hd := hdepth (j + 1) (by simp; omega)
          rw [List.take_succ_cons, depth_cons] at hd
          have hds : depthStep op = 0 := by
            cases op <;> simp_all [depthStep]
          rw [hds] at hd
          omega

/-- Processing a balanced prefix from depth 0: the Structurer emits a
block of instructions whose flattening is exactly that prefix, and
continues at depth 0 right after it.  `IH` supplies correctness of the
recursive slice parses (they act on strictly shorter opcode lists). -/
theorem pa_process (ops : List OpCode)
    (IH : ∀ l2 : List OpCode, l2.length < ops.length → Balanced l2 →
      ∃ r, parseAux l2 0 [] 0 0 = .ok r ∧ flatten r = l2) :
    ∀ {pre : List OpCode}, Balanced pre →
      ∀ (i : Nat) (prog : List Instruction) (ls : Nat) (tail : List OpCode),
        ops.drop i = pre ++ tail →
        ∃ (res : List Instruction) (ls2 : Nat),
          parseAux ops i prog 0 ls = parseAux ops (i + pre.length) (prog ++ res) 0 ls2 ∧
          flatten res = pre := by
  intro pre hb
  induction hb with
  | nil =>
      intro i prog ls tail _
      exact ⟨[], ls, by simp, by simp [flatten]⟩
  | @cons op rest h1 h2 hrest ihRest =>
      intro i prog ls tail hdrop
      simp only [List.cons_append] at hdrop
      have hlt := lt_of_drop_cons hdrop
      have hop := getElem_of_drop_cons hdrop hlt
      have hnext := drop_succ_of_drop_cons hdrop
      rw [pa_simple ops i prog ls op hlt hop h1 h2]
      obtain ⟨res2, ls2, heq, hfl⟩ :=
        ihRest (i + 1) (prog ++ (simpleInstr op).toList) ls tail hnext
      refine ⟨(simpleInstr op).toList ++ res2, ls2, ?_, ?_⟩
      · rw [heq, show i + (op :: rest).length = i + 1 + rest.length from by simp; omega,
          List.append_assoc]
      · rw [flatten_append, flatten_simple op h1 h2, hfl]
        rfl
  | @wrap inner rest hinner hrest ihInner ihRest =>
      intro i prog ls tail hdrop
      simp only [List.cons_append, List.append_assoc] at hdrop
      have hlt := lt_of_drop_cons hdrop
      have hop := getElem_of_drop_cons hdrop hlt
      have hnext := drop_succ_of_drop_cons hdrop
      rw [pa_loopBegin ops i prog ls hlt hop]
      rw [pa_skip hinner ops (i + 1) prog 1 i (.loopEnd :: (rest ++ tail)) (by omega) hnext]
      have hdropEnd : ops.drop (i + 1 + inner.length) = .loopEnd :: (rest ++ tail) :=
        drop_add_of_drop_append hnext
      have hltE := lt_of_drop_cons hdropEnd
      have hopE := getElem_of_drop_cons hdropEnd hltE
      have hnextE := drop_succ_of_drop_cons hdropEnd
      rw [pa_loopEnd_close ops _ prog i hltE hopE]
      have hslice : (ops.take (i + 1 + inner.length)).drop (i + 1) = inner :=
        take_drop_of_drop_append hnext
      have hinlen : inner.length < ops.length := by
        have hlen := congrArg List.length hnext
        rw [List.length_drop] at hlen
        simp [List.length_append] at hlen
        omega
      obtain ⟨rIn, hInOk, hInFl⟩ := IH inner hinlen hinner
      rw [hslice, hInOk]
      obtain ⟨res2, ls2, heq, hfl⟩ :=
        ihRest (i + 1 + inner.length + 1) (prog ++ [.loop rIn]) i tail hnextE
      refine ⟨.loop rIn :: res2, ls2, ?_, ?_⟩
      · show parseAux ops (i + 1 + inner.length + 1) (prog ++ [Instruction.loop rIn]) 0 i =
          parseAux ops (i + (OpCode.loopBegin :: inner ++ OpCode.loopEnd :: rest).length)
            (prog ++ (Instruction.loop rIn :: res2)) 0 ls2
        rw [heq,
          show i + (OpCode.loopBegin :: inner ++ OpCode.loopEnd :: rest).length =
            i + 1 + inner.length + 1 + rest.length from by
              simp [List.length_append]; omega]
        rw [List.append_assoc]
        rfl
      · simp [flatten, hInFl, hfl]

/-- The Structurer succeeds on every balanced opcode sequence, and its
output flattens back to the input. -/
theorem parse_balanced :
    ∀ ops : List OpCode, Balanced ops →
      ∃ r, parseAux ops 0 [] 0 0 = .ok r ∧ flatten r = ops := by
  have H : ∀ n : Nat, ∀ ops : List OpCode, ops.length ≤ n → Balanced ops →
      ∃ r, parseAux ops 0 [] 0 0 = .ok r ∧ flatten r = ops := by
    intro n
    induction n using Nat.strong_induction_on with
    | _ n IHn =>
      intro ops hlen hb
      have IH : ∀ l2 : List OpCode, l2.length < ops.length → Balanced l2 →
          ∃ r, parseAux l2 0 [] 0 0 = .ok r ∧ flatten r = l2 := by
        intro l2 hl2 hb2
        exact IHn l2.length (by omega) l2 le_rfl hb2
      obtain ⟨res, ls2, heq, hfl⟩ := pa_process ops IH hb 0 [] 0 [] (by simp)
      refine ⟨res, ?_, hfl⟩
      rw [heq, pa_done ops (0 + ops.length) (([] : List Instruction) ++ res) 0 ls2 (by omega)]
      simp
  intro ops hb
  exact H ops.length ops le_rfl hb

/-- C4: the Structurer succeeds on every balanced, properly nested opcode
sequence, and flattening its output depth-first (`LoopBegin`, flattened
body, `LoopEnd` for each `Loop` node) reproduces exactly the input; the
empty sequence yields the empty instruction sequence. -/
theorem claim_C4 :
    (∀ ops : List OpCode, Balanced ops →
        ∃ prog, parse ops = .ok prog ∧ flatten prog = ops) ∧
    parse [] = .ok [] := by
  constructor
  · intro ops hb
    exact parse_balanced ops hb
  · rw [parse, pa_done [] 0 [] 0 0 (by simp)]
    simp

/-- Witness for `claim_C4`: the program `[ + ] .` structures successfully
and flattens back to itself. -/
theorem claim_C4_witness :
    ∃ prog,
      parse [OpCode.loopBegin, OpCode.increment, OpCode.loopEnd, OpCode.write] =
          .ok prog ∧
      flatten prog =
        [OpCode.loopBegin, OpCode.increment, OpCode.loopEnd, OpCode.write] :=
  claim_C4.1 _
    (Balanced.wrap (Balanced.cons (by decide) (by decide) Balanced.nil)
      (Balanced.cons (by decide) (by decide) Balanced.nil))

/-- C5: a `LoopEnd` arriving with every earlier loop closed (a balanced
prefix before it) fails the Structurer with `UnmatchedLoopEnd` at that
position; a depth-0 `LoopBegin` whose remainder never closes it fails with
`UnterminatedLoop` at its position (the recorded loop start); balanced
sequences succeed. -/
theorem claim_C5 :
    (∀ (ops pre tail : List OpCode), Balanced pre →
        ops = pre ++ OpCode.loopEnd :: tail →
        parse ops = .error (.unmatchedLoopEnd pre.length)) ∧
    (∀ (ops pre mid : List OpCode), Balanced pre →
        ops = pre ++ OpCode.loopBegin :: mid →
        (∀ j, j ≤ mid.length → 0 ≤ depth (mid.take j)) →
        parse ops = .error (.unterminatedLoop pre.length)) ∧
    (∀ ops : List OpCode, Balanced ops → ∃ prog, parse ops = .ok prog) := by
  refine ⟨?_, ?_, ?_⟩
  · intro ops pre tail hb heq
    subst heq
    have IH : ∀ l2 : List OpCode,
        l2.length < (pre ++ OpCode.loopEnd :: tail).length → Balanced l2 →
        ∃ r, parseAux l2 0 [] 0 0 = .ok r ∧ flatten r = l2 :=
      fun l2 _ hb2 => parse_balanced l2 hb2
    obtain ⟨res, ls2, heq2, -⟩ :=
      pa_process _ IH hb 0 [] 0 (OpCode.loopEnd :: tail) (by simp)
    simp only [Nat.zero_add] at heq2
    have hdropE : (pre ++ OpCode.loopEnd :: tail).drop pre.length =
        OpCode.loopEnd :: tail := by
      have := drop_add_of_drop_append
        (show (pre ++ OpCode.loopEnd :: tail).drop 0 = pre ++ OpCode.loopEnd :: tail
          from by simp)
      simpa using this
    have hlt := lt_of_drop_cons hdropE
    have hop := getElem_of_drop_cons hdropE hlt
    rw [parse, heq2, pa_loopEnd_zero _ _ _ ls2 hlt hop]
  · intro ops pre mid hb heq hdepth
    subst heq
    have IH : ∀ l2 : List OpCode,
        l2.length < (pre ++ OpCode.loopBegin :: mid).length → Balanced l2 →
        ∃ r, parseAux l2 0 [] 0 0 = .ok r ∧ flatten r = l2 :=
      fun l2 _ hb2 => parse_balanced l2 hb2
    obtain ⟨res, ls2, heq2, -⟩ :=
      pa_process _ IH hb 0 [] 0 (OpCode.loopBegin :: mid) (by simp)
    simp only [Nat.zero_add] at heq2
    have hdropB : (pre ++ OpCode.loopBegin :: mid).drop pre.length =
        OpCode.loopBegin :: mid := by
      have := drop_add_of_drop_append
        (show (pre ++ OpCode.loopBegin :: mid).drop 0 = pre ++ OpCode.loopBegin :: mid
          from by simp)
      simpa using this
    have hlt := lt_of_drop_cons hdropB
    have hop := getElem_of_drop_cons hdropB hlt
    have hnext := drop_succ_of_drop_cons hdropB
    rw [parse, heq2, pa_loopBegin _ _ _ _ hlt hop]
    refine pa_unterminated mid _ _ _ 1 _ le_rfl hnext ?_
    intro j hj
    have := hdepth j hj
    push_cast
    omega
  · intro ops hb
    obtain ⟨r, hok, -⟩ := parse_balanced ops hb
    exact ⟨r, hok⟩

/-- Witness for `claim_C5`: a lone `LoopEnd` reports `UnmatchedLoopEnd 0`,
a lone `LoopBegin` reports `UnterminatedLoop 0`, and `[]` parses. -/
theorem claim_C5_witness :
    parse [OpCode.loopEnd] = .error (.unmatchedLoopEnd 0) ∧
    parse [OpCode.loopBegin] = .error (.unterminatedLoop 0) ∧
    ∃ prog, parse [OpCode.loopBegin, OpCode.loopEnd] = .ok prog :=
  ⟨claim_C5.1 [OpCode.loopEnd] [] [] Balanced.nil rfl,
   claim_C5.2.1 [OpCode.loopBegin] [] [] Balanced.nil rfl (by decide),
   claim_C5.2.2 [OpCode.loopBegin, OpCode.loopEnd]
     (Balanced.wrap Balanced.nil Balanced.nil)⟩

end Svolang
